import Mathlib

/-
Verification of the prompt-construction and response-extraction logic of the
Tootli AI recommendation service (src/main.py).

The embedding models text as `List Char`.  Python semantics captured here:
  * `\s` in the regexes and `str.strip()` use the ASCII whitespace class
    (space, tab, newline, carriage return, vertical tab, form feed);
  * `str.split(',')` always yields at least one (possibly empty) token;
  * `str.isdigit()` on a token is modelled as "non-empty and all decimal
    digits" (the ASCII fragment of Python's predicate);
  * `re.search(r'\[RECOMENDACION_IDS:\s*([^\]]*)\]', t)` finds the leftmost
    occurrence of the literal keyword that is followed by a closing bracket;
    the captured group is the span up to the first ']' with leading
    whitespace removed (the greedy `\s*` sits outside the group);
  * `re.sub(r'\s*\[RECOMENDACION_IDS:[^\]]*\]\s*', '', t)` removes every
    non-overlapping leftmost match, i.e. each marker together with the
    maximal whitespace runs immediately before and after it;
  * numeric-to-text interpolation of prices/ratings in the prompt is
    abstracted by `ratStr`; no claim depends on the rendered digits.
-/

/-- Python's `\s` / `str.strip` whitespace class (ASCII fragment). -/
def pySpace (c : Char) : Bool :=
  c == ' ' || c == '\t' || c == '\n' || c == '\r' || c == '\x0b' || c == '\x0c'

/-- `str.strip()`: remove leading and trailing whitespace. -/
def pyStrip (s : List Char) : List Char :=
  (((s.dropWhile pySpace).reverse.dropWhile pySpace)).reverse

/-- `str.split(',')`: split on every comma; always returns at least one token. -/
def splitOnComma : List Char → List (List Char)
  | [] => [[]]
  | c :: rest =>
      if c == ',' then [] :: splitOnComma rest
      else
        match splitOnComma rest with
        | t :: ts => (c :: t) :: ts
        | [] => [[c]]

/-- Numeric value of an all-digit token (what Python's `int` returns on it). -/
def digitsVal (s : List Char) : Nat :=
  s.foldl (fun a c => 10 * a + (c.toNat - 48)) 0

/-- Line 116 of src/main.py:
`[int(id.strip()) for id in ids_str.split(',') if id.strip().isdigit()]`,
with `str.isdigit` restricted to its ASCII fragment.  Python's `isdigit`
further accepts Unicode digit characters, on some of which `int` then raises
ValueError; `parseIdsPy` below models that behaviour, and on ASCII payloads
the two functions agree (`parseIdsPy_ascii`). -/
def parseIds (ids_str : List Char) : List Int :=
  (splitOnComma ids_str).filterMap fun tok =>
    if !(pyStrip tok).isEmpty && (pyStrip tok).all Char.isDigit then
      some (Int.ofNat (digitsVal (pyStrip tok)))
    else none

/-- Decimal digits (Unicode general category Nd, the characters Python's
`int` accepts), restricted to the blocks this development instantiates:
ASCII 0-9, Arabic-Indic U+0660-U+0669, fullwidth U+FF10-U+FF19. -/
def isDecimalDigitChar (c : Char) : Bool :=
  c.isDigit || (decide (0x660 ≤ c.toNat) && decide (c.toNat ≤ 0x669)) ||
  (decide (0xFF10 ≤ c.toNat) && decide (c.toNat ≤ 0xFF19))

/-- Characters with Unicode property Numeric_Type=Digit that are not decimal
digits - `str.isdigit` accepts them but `int` raises ValueError on them -
restricted to the superscripts U+00B9, U+00B2, U+00B3. -/
def isDigitNotDecimalChar (c : Char) : Bool :=
  decide (c.toNat = 0xB9) || decide (c.toNat = 0xB2) || decide (c.toNat = 0xB3)

/-- Python's `str.isdigit` character class (Numeric_Type Digit or Decimal),
restricted to the blocks of the two definitions above. -/
def pyIsDigitChar (c : Char) : Bool :=
  isDecimalDigitChar c || isDigitNotDecimalChar c

/-- Value `int` computes on an all-decimal-digit token: each digit
contributes its offset within its block. -/
def decimalsVal (s : List Char) : Nat :=
  s.foldl (fun a c => 10 * a +
    (if c.isDigit then c.toNat - 48
     else if decide (0x660 ≤ c.toNat) && decide (c.toNat ≤ 0x669) then c.toNat - 0x660
     else c.toNat - 0xFF10)) 0

/-- Line 116 over the split token list with Python's Unicode semantics: a
token is kept when its trimmed form is non-empty and all-`isdigit`; `int`
converts a kept all-decimal token, while a kept token holding a digit-typed
non-decimal character (such as the superscript two) makes `int` raise
ValueError - modelled as `Except.error ()` - which the handler's `except`
clause (line 136) turns into a 503 response. -/
def parseTokensPy : List (List Char) → Except Unit (List Int)
  | [] => Except.ok []
  | tok :: rest =>
      if !(pyStrip tok).isEmpty && (pyStrip tok).all pyIsDigitChar then
        if (pyStrip tok).all isDecimalDigitChar then
          match parseTokensPy rest with
          | Except.ok l => Except.ok (Int.ofNat (decimalsVal (pyStrip tok)) :: l)
          | Except.error e => Except.error e
        else Except.error ()
      else parseTokensPy rest

/-- Line 116 of src/main.py with Python's Unicode `isdigit`/`int` semantics
(restricted to the character blocks modelled above); `parseIds` is its ASCII
restriction. -/
def parseIdsPy (ids_str : List Char) : Except Unit (List Int) :=
  parseTokensPy (splitOnComma ids_str)

/-- The literal marker keyword of the regexes, brackets-and-colon included. -/
def kw : List Char := "[RECOMENDACION_IDS:".toList

/-- Substring test: does `pat` occur contiguously inside `s`? -/
def isSubstrOf (pat : List Char) : List Char → Bool
  | [] => pat.isPrefixOf []
  | c :: rest => pat.isPrefixOf (c :: rest) || isSubstrOf pat rest

/-- `re.search(r'\[RECOMENDACION_IDS:\s*([^\]]*)\]', t)` (line 111): leftmost
match wins; returns the captured group of the first match, if any. -/
def findMarker : List Char → Option (List Char)
  | [] => none
  | c :: rest =>
      if kw.isPrefixOf (c :: rest) && (((c :: rest).drop kw.length).contains ']') then
        some ((((c :: rest).drop kw.length).takeWhile (fun x => x != ']')).dropWhile pySpace)
      else findMarker rest

/-- Does a match of `\s*\[RECOMENDACION_IDS:[^\]]*\]\s*` start at the head of
`s`?  The `\s*` can only reach the keyword through the maximal whitespace run
(the keyword starts with a non-whitespace character), and the mandatory `]`
must occur after the keyword. -/
def smCond (s : List Char) : Bool :=
  kw.isPrefixOf (s.dropWhile pySpace) &&
  (((s.dropWhile pySpace).drop kw.length).contains ']')

/-- The remainder of `s` after deleting the match that starts at its head:
leading whitespace, keyword, payload up to the first `]`, the `]`, and the
trailing whitespace run. -/
def smTarget (s : List Char) : List Char :=
  (((((s.dropWhile pySpace).drop kw.length).dropWhile (fun x => x != ']')).drop 1)).dropWhile
    pySpace

/-- One pass of `re.sub(r'\s*\[RECOMENDACION_IDS:[^\]]*\]\s*', '', t)`
(line 118), written with explicit fuel so that it is structurally recursive:
at each position, if a match starts there the whole match is deleted and
scanning resumes after it; otherwise the character is kept.  Each step
consumes at least one input character, so `fuel = length` never runs out. -/
def stripMarkersF : Nat → List Char → List Char
  | 0, s => s
  | _ + 1, [] => []
  | fuel + 1, c :: rest =>
      if smCond (c :: rest) then stripMarkersF fuel (smTarget (c :: rest))
      else c :: stripMarkersF fuel rest

/-- `re.sub(r'\s*\[RECOMENDACION_IDS:[^\]]*\]\s*', '', t)`. -/
def stripMarkers (s : List Char) : List Char :=
  stripMarkersF s.length s

/-- A chat history message (src/main.py lines 14-16). -/
structure Message where
  role : List Char
  content : List Char
deriving DecidableEq

/-- A restaurant candidate (src/main.py lines 18-33).  The two numeric fields
are modelled over `ℚ`; their prompt rendering is abstracted by `ratStr`. -/
structure Candidate where
  id : Int
  name : List Char
  address : List Char
  avg_price_for_two : ℚ
  description : List Char
  tags : Option (List (List Char))
  discount_info : Option (List Char)
  rating : Option ℚ
  serves_alcohol : Option Bool
  featured : Option Bool
  delivery_time : Option (List Char)
  tipo_cocina : Option (List Char)
deriving DecidableEq

/-- The request body (src/main.py lines 35-44).  `filters` holds the rendered
text of a non-empty filter dict; `none` stands for an absent or empty dict
(both are falsy in the f-string on line 62). -/
structure RecommendationRequest where
  user_query : List Char
  user_name : List Char
  filters : Option (List Char)
  candidates : Option (List Candidate)
  history : Option (List Message)
  previous_candidate_ids : Option (List Int)
deriving DecidableEq

/-- The JSON object returned on line 135. -/
structure RecommendationResult where
  responseText : List Char
  recommendation_ids : List Int
deriving DecidableEq

/-- The fixed fallback sentence of line 133. -/
def fallbackText : List Char :=
  "No hay restaurantes que cumplan todas las condiciones. ¿Quieres ver resultados que solo cumplan la última condición?".toList

/-- Line 121: `[c.id for c in request.candidates] if request.candidates else []`
(the comprehension over an empty list coincides with the falsy branch). -/
def candidateIds : Option (List Candidate) → List Int
  | some cs => cs.map Candidate.id
  | none => []

/-- Lines 111-116: extracted identifier list (empty when no marker is found or
the captured group is the empty string). -/
def extractIds (text_response : List Char) : List Int :=
  match findMarker text_response with
  | some ids_str => if ids_str.isEmpty then [] else parseIds ids_str
  | none => []

/-- Lines 117-118: the marker-sub-and-strip runs only when a marker matched;
otherwise the reply text is passed through untouched. -/
def cleanedText (text_response : List Char) : List Char :=
  match findMarker text_response with
  | some _ => pyStrip (stripMarkers text_response)
  | none => text_response

/-- Line 122: keep only identifiers present in the candidate set. -/
def filteredIds (text_response : List Char) (cands : Option (List Candidate)) : List Int :=
  (extractIds text_response).filter fun rid => (candidateIds cands).contains rid

/-- Lines 111-135: everything `get_recommendation_from_gemini` does to a
successful model reply.  `if request.previous_candidate_ids:` is falsy for an
absent or empty list; `[int(x) for x in request.previous_candidate_ids]` is
the identity on a list of ints. -/
def parseAndReconcile (text_response : List Char) (cands : Option (List Candidate))
    (previous_candidate_ids : Option (List Int)) : RecommendationResult :=
  let recommendation_ids := filteredIds text_response cands
  let text_out := cleanedText text_response
  match previous_candidate_ids with
  | none => ⟨text_out, recommendation_ids⟩
  | some previous_ids =>
      if previous_ids.isEmpty then ⟨text_out, recommendation_ids⟩
      else
        let intersection := recommendation_ids.filter fun rid => previous_ids.contains rid
        if intersection.isEmpty then ⟨fallbackText, []⟩
        else ⟨text_out, intersection⟩

/-- Stand-in for Python's numeric-to-text interpolation of the `ℚ`-modelled
fields (price, rating) in the prompt f-strings.  Its exact digits are
irrelevant to every property below. -/
def ratStr (q : ℚ) : List Char :=
  if q.den = 1 then (toString q.num).toList
  else (toString q.num).toList ++ '/' :: (toString q.den).toList

/-- Lines 79-89: the feature clauses.  Python truthiness notes: an absent
optional is `None` (falsy); `featured`/`serves_alcohol` contribute only when
`Some true`; a rating contributes when non-zero (truthy) and `>= 4.0`; an
empty `delivery_time` string is falsy. -/
def features (c : Candidate) : List (List Char) :=
  (if c.featured.getD false then [("⭐ Destacado").toList] else []) ++
  (if c.serves_alcohol.getD false then [("🍷 Sirve alcohol").toList] else []) ++
  (match c.rating with
   | some r => if r ≠ 0 ∧ 4 ≤ r then [("🌟 Rating: ").toList ++ ratStr r] else []
   | none => []) ++
  (match c.delivery_time with
   | some d => if d.isEmpty then [] else [("⏱️ ").toList ++ d]
   | none => [])

/-- Line 89: `" | ".join(features) if features else "Estándar"`. -/
def features_str (c : Candidate) : List Char :=
  if (features c).isEmpty then ("Estándar").toList
  else List.intercalate (" | ").toList (features c)

/-- Lines 90-91: `" | ".join(tags) if tags else "Sin tags específicos"`
(`tags` is falsy both when `None` and when the empty list). -/
def tags_str (c : Candidate) : List Char :=
  match c.tags with
  | some ts => if ts.isEmpty then ("Sin tags específicos").toList
               else List.intercalate (" | ").toList ts
  | none => ("Sin tags específicos").toList

/-- Line 93: `getattr(c, 'tipo_cocina', 'Cocina variada')`.  The pydantic
model always defines the attribute (as `None` when the field was absent), so
the `getattr` default never fires and the f-string renders Python's `None` as
the text "None". -/
def tipo_cocina_str (c : Candidate) : List Char :=
  match c.tipo_cocina with
  | some t => t
  | none => ("None").toList

/-- Line 99: `f" | 🎯 {discount_info}" if discount_info else ""` (an empty
discount string is falsy). -/
def discount_part (c : Candidate) : List Char :=
  match c.discount_info with
  | some d => if d.isEmpty then [] else (" | 🎯 ").toList ++ d
  | none => []

/-- Lines 95-100: the per-candidate block appended to the prompt. -/
def candidateBlock (c : Candidate) : List Char :=
  ("\n- ID: ").toList ++ (toString c.id).toList ++ (" | ").toList ++ c.name ++
  ("\n  💰 $").toList ++ ratStr c.avg_price_for_two ++ (" para dos | ").toList ++
  tipo_cocina_str c ++
  ("\n  🏷️ TAGS: ").toList ++ tags_str c ++
  ("\n  ✨ ").toList ++ features_str c ++ discount_part c ++
  ("\n  📍 ").toList ++ c.address

/-- Lines 59-74: the fixed instruction header of the prompt. -/
def promptIntro (request : RecommendationRequest) : List Char :=
  ("¡Hola! Eres Toot, un asistente amigable que ayuda a encontrar restaurantes.\n\nConsulta: \"").toList ++
  request.user_query ++
  ("\"\nFiltros aplicados: ").toList ++
  (match request.filters with
   | some f => f
   | none => ("Ninguno").toList) ++
  ("\n\nREGLAS OBLIGATORIAS:\n1) SOLO puedes recomendar restaurantes que estén en la lista \"RESTAURANTES DISPONIBLES\" que te proveo abajo.\n2) Si el request incluye \"previous_candidate_ids\", considera que el usuario está refinando una búsqueda previa. En ese caso debes RECOMENDAR SOLO aquellos restaurantes que:\n   a) estén en la lista de candidatos proporcionada y\n   b) además estén dentro de previous_candidate_ids (es decir, intersecta la nueva elección con los previos).\n   Si no existe intersección, devuelve una lista vacía de IDs y un breve mensaje de fallback (ej.: \"No hay restaurantes que cumplan todas las condiciones; ¿quieres ver opciones que cumplan la última condición?\").\n3) Al final de tu respuesta devuelve exactamente el token: [RECOMENDACION_IDS: id1, id2, ...] (si no hay ids, escribe [RECOMENDACION_IDS:]).\n4) En el texto explica brevemente (1-2 frases por restaurante) por qué lo recomiendas, pero NO incluyas IDs dentro del texto.\n5) NO uses negritas ni formateo con IDs.\n\n").toList

/-- Line 104: the instruction appended when no candidates were found. -/
def noCandidatesText : List Char :=
  ("\n\nNo se encontraron restaurantes para esta búsqueda. Sugiere al usuario que intente con otros términos o menos filtros. Termina tu respuesta con [RECOMENDACION_IDS: ].").toList

/-- Lines 76-104: the full prompt
(`request.candidates and len(request.candidates) > 0`). -/
def buildPrompt (request : RecommendationRequest) : List Char :=
  promptIntro request ++
  (match request.candidates with
   | some cs =>
       if 0 < cs.length then
         ("\n\nRESTAURANTES DISPONIBLES (").toList ++ (toString cs.length).toList ++
         (" encontrados):").toList ++
         (cs.map candidateBlock).flatten ++
         ("\n\nANÁLISIS: Basándote en los TAGS y características, recomienda los que mejor coincidan con \x27").toList ++
         request.user_query ++ ("\x27.").toList
       else noCandidatesText
   | none => noCandidatesText)

/-- The error raised on line 138. -/
structure HTTPErrorT where
  status_code : Nat
  detail : List Char
deriving DecidableEq

/-- Lines 106-138: the whole handler body around the single
`chat.send_message(prompt)` call.  The external model invoker is modelled as
the stream of outcomes of successive calls, indexed by call count and fed the
prompt; the code performs exactly one call (index 0) and maps any failure to
one 503 "service unavailable" error carrying the failure text. -/
def get_recommendation_from_gemini (request : RecommendationRequest)
    (send_message : Nat → List Char → Except (List Char) (List Char)) :
    Except HTTPErrorT RecommendationResult :=
  match send_message 0 (buildPrompt request) with
  | Except.error e =>
      Except.error ⟨503, ("El servicio de IA (Gemini) no está disponible: ").toList ++ e⟩
  | Except.ok text_response =>
      Except.ok (parseAndReconcile text_response request.candidates request.previous_candidate_ids)

/-- `l` ends in a non-whitespace character (or is empty): the canonical shape
of the text standing immediately before a marker's leading whitespace run. -/
def endsNonSpace : List Char → Bool
  | [] => true
  | [c] => !pySpace c
  | _ :: c :: rest => endsNonSpace (c :: rest)

/-- One well-formed marker occurrence inside a reply text, in canonical form:
the maximal whitespace run before the keyword, the payload between the colon
and the first closing bracket, and the gap - the text after the bracket up to
the next marker's whitespace run (or the end of the text); the gap may start
with whitespace, which the match's trailing run consumes. -/
structure MarkerSeg where
  ws : List Char
  payload : List Char
  gap : List Char
deriving DecidableEq

/-- Render a list of marker occurrences back into text. -/
def renderSegs : List MarkerSeg → List Char
  | [] => []
  | seg :: rest => seg.ws ++ kw ++ seg.payload ++ ']' :: (seg.gap ++ renderSegs rest)

/-- What marker removal leaves: each gap with the whitespace run that follows
its marker's bracket removed, concatenated. -/
def gapsJoin : List MarkerSeg → List Char
  | [] => []
  | seg :: rest => seg.gap.dropWhile pySpace ++ gapsJoin rest

/-- Canonicity conditions for a marker decomposition: each whitespace run is
whitespace, each payload stops before the first `]`, no gap contains the
keyword, and every gap standing before a further marker ends in a
non-whitespace character (its trailing whitespace belongs to the next
marker's run); gaps may start with arbitrary whitespace and the last gap is
arbitrary. -/
def segsOkB : List MarkerSeg → Bool
  | [] => true
  | seg :: rest =>
      seg.ws.all pySpace && !seg.payload.contains ']' &&
      !(isSubstrOf kw seg.gap) &&
      (match rest with
       | [] => true
       | _ :: _ => endsNonSpace seg.gap && segsOkB rest)

/-- The payload of the first marker occurrence. -/
def headPayload : List MarkerSeg → List Char
  | [] => []
  | seg :: _ => seg.payload

theorem ipo_exists (p : List Char) : ∀ s, p.isPrefixOf s = true ↔ ∃ t, s = p ++ t := by
  induction p with
  | nil => intro s; simp [List.isPrefixOf]
  | cons a as ih =>
      intro s
      cases s with
      | nil => simp [List.isPrefixOf]
      | cons b bs =>
          simp only [List.isPrefixOf, Bool.and_eq_true, beq_iff_eq, List.cons_append,
            List.cons.injEq]
          constructor
          · rintro ⟨rfl, h⟩
            obtain ⟨t, rfl⟩ := (ih bs).1 h
            exact ⟨t, rfl, rfl⟩
          · rintro ⟨t, rfl, rfl⟩
            exact ⟨rfl, (ih _).2 ⟨t, rfl⟩⟩

theorem ipo_self_append (p t : List Char) : p.isPrefixOf (p ++ t) = true :=
  (ipo_exists p _).2 ⟨t, rfl⟩

theorem ipo_append_right (p s b : List Char) (h : p.isPrefixOf s = true) :
    p.isPrefixOf (s ++ b) = true := by
  obtain ⟨t, rfl⟩ := (ipo_exists p s).1 h
  rw [List.append_assoc]
  exact ipo_self_append p (t ++ b)

theorem isSubstrOf_iff (pat : List Char) :
    ∀ s, isSubstrOf pat s = true ↔ ∃ i, pat.isPrefixOf (s.drop i) = true := by
  intro s
  induction s with
  | nil =>
      simp only [isSubstrOf, List.drop_nil]
      exact ⟨fun h => ⟨0, h⟩, fun ⟨_, h⟩ => h⟩
  | cons c rest ih =>
      simp only [isSubstrOf, Bool.or_eq_true]
      constructor
      · rintro (h | h)
        · exact ⟨0, h⟩
        · obtain ⟨i, hi⟩ := ih.1 h
          exact ⟨i + 1, by simpa using hi⟩
      · rintro ⟨i, hi⟩
        cases i with
        | zero => exact Or.inl hi
        | succ j => exact Or.inr (ih.2 ⟨j, by simpa using hi⟩)

theorem substr_cons_false (pat c : _) (rest : List Char) (h : isSubstrOf pat (c :: rest) = false) :
    isSubstrOf pat rest = false := by
  by_contra hh
  have h2 : isSubstrOf pat rest = true := by
    cases hr : isSubstrOf pat rest with
    | true => rfl
    | false => exact absurd hr hh
  simp [isSubstrOf, h2] at h

theorem substr_prepend (pat s : List Char) (h : isSubstrOf pat s = true) :
    ∀ a : List Char, isSubstrOf pat (a ++ s) = true := by
  intro a
  induction a with
  | nil => simpa using h
  | cons c cs ih => simp [isSubstrOf, ih]

theorem substr_append_right (pat s b : List Char) (h : isSubstrOf pat s = true) :
    isSubstrOf pat (s ++ b) = true := by
  obtain ⟨i, hi⟩ := (isSubstrOf_iff pat s).1 h
  rcases Nat.lt_or_ge i s.length with hlt | hge
  · refine (isSubstrOf_iff pat (s ++ b)).2 ⟨i, ?_⟩
    have hdrop : (s ++ b).drop i = s.drop i ++ b := List.drop_append_of_le_length (le_of_lt hlt)
    rw [hdrop]
    exact ipo_append_right _ _ _ hi
  · have hnil : s.drop i = [] := List.drop_eq_nil_of_le hge
    rw [hnil] at hi
    have hp : pat = [] := by
      obtain ⟨t, ht⟩ := (ipo_exists pat []).1 hi
      cases pat with
      | nil => rfl
      | cons x xs => simp at ht
    subst hp
    refine (isSubstrOf_iff [] (s ++ b)).2 ⟨0, ?_⟩
    simp [List.isPrefixOf]

theorem substr_middle (pat a m b : List Char) (h : isSubstrOf pat m = true) :
    isSubstrOf pat (a ++ m ++ b) = true := by
  rw [List.append_assoc]
  exact substr_prepend _ _ (substr_append_right _ _ _ h) a

theorem take_append_le (l₁ l₂ : List Char) : ∀ n, n ≤ l₁.length → (l₁ ++ l₂).take n = l₁.take n := by
  induction l₁ with
  | nil =>
      intro n hn
      have : n = 0 := Nat.le_zero.mp (by simpa using hn)
      simp [this]
  | cons a l ih =>
      intro n hn
      cases n with
      | zero => simp
      | succ m => simpa using ih m (by simpa using hn)

theorem drop_len_append (l₁ l₂ : List Char) : (l₁ ++ l₂).drop l₁.length = l₂ := by
  induction l₁ with
  | nil => simp
  | cons a l ih => simp only [List.cons_append, List.length_cons, List.drop_succ_cons]; exact ih

theorem take_len_append (l₁ l₂ : List Char) : (l₁ ++ l₂).take l₁.length = l₁ := by
  induction l₁ with
  | nil => simp
  | cons a l ih => simp only [List.cons_append, List.length_cons, List.take_succ_cons]; rw [ih]

theorem drop_append_ge (l₁ l₂ : List Char) :
    ∀ n, l₁.length ≤ n → (l₁ ++ l₂).drop n = l₂.drop (n - l₁.length) := by
  induction l₁ with
  | nil => intro n _; simp
  | cons a l ih =>
      intro n hn
      cases n with
      | zero => simp at hn
      | succ m => simpa using ih m (by simpa using hn)

theorem contains_iff_mem (l : List Char) (a : Char) : l.contains a = true ↔ a ∈ l := by
  induction l with
  | nil => simp
  | cons b bs ih =>
      simp only [List.contains_cons, Bool.or_eq_true, beq_iff_eq, List.mem_cons] at *
      constructor
      · rintro (rfl | h)
        · exact Or.inl rfl
        · exact Or.inr (ih.1 h)
      · rintro (rfl | h)
        · exact Or.inl rfl
        · exact Or.inr (ih.2 h)

theorem contains_mid (l₁ l₂ : List Char) (a : Char) : (l₁ ++ a :: l₂).contains a = true :=
  (contains_iff_mem _ _).2 (List.mem_append_right _ (List.mem_cons_self _ _))

theorem contains_false_forall (l : List Char) (a : Char) (h : l.contains a = false) :
    ∀ x ∈ l, ¬(x = a) := by
  intro x hx hxa
  subst hxa
  have hc := (contains_iff_mem l x).2 hx
  rw [hc] at h
  exact Bool.noConfusion h

theorem takeWhile_mid (q : Char → Bool) (l₁ : List Char) :
    ∀ a l₂, (∀ x ∈ l₁, q x = true) → q a = false →
    (l₁ ++ a :: l₂).takeWhile q = l₁ := by
  induction l₁ with
  | nil => intro a l₂ _ ha; simp [List.takeWhile_cons, ha]
  | cons c cs ih =>
      intro a l₂ hall ha
      have hc : q c = true := hall c (List.mem_cons_self _ _)
      simp only [List.cons_append, List.takeWhile_cons, hc, if_true]
      rw [ih a l₂ (fun x hx => hall x (List.mem_cons_of_mem _ hx)) ha]

theorem dropWhile_mid (q : Char → Bool) (l₁ : List Char) :
    ∀ a l₂, (∀ x ∈ l₁, q x = true) → q a = false →
    (l₁ ++ a :: l₂).dropWhile q = a :: l₂ := by
  induction l₁ with
  | nil => intro a l₂ _ ha; simp [List.dropWhile_cons, ha]
  | cons c cs ih =>
      intro a l₂ hall ha
      have hc : q c = true := hall c (List.mem_cons_self _ _)
      simp only [List.cons_append, List.dropWhile_cons, hc, if_true]
      exact ih a l₂ (fun x hx => hall x (List.mem_cons_of_mem _ hx)) ha

theorem dropWhile_append_all (p : Char → Bool) (l₁ : List Char) :
    ∀ l₂, (∀ x ∈ l₁, p x = true) → (l₁ ++ l₂).dropWhile p = l₂.dropWhile p := by
  induction l₁ with
  | nil => intro l₂ _; simp
  | cons c cs ih =>
      intro l₂ hall
      have hc : p c = true := hall c (List.mem_cons_self _ _)
      simp only [List.cons_append, List.dropWhile_cons, hc, if_true]
      exact ih l₂ fun x hx => hall x (List.mem_cons_of_mem _ hx)

theorem dropWhile_head_false (p : Char → Bool) (c : Char) (l : List Char) (h : p c = false) :
    (c :: l).dropWhile p = c :: l := by
  simp [List.dropWhile_cons, h]

theorem dropWhile_eq_drop (p : Char → Bool) :
    ∀ s : List Char, s.dropWhile p = s.drop (s.takeWhile p).length := by
  intro s
  induction s with
  | nil => simp
  | cons c rest ih =>
      by_cases hc : p c = true
      · simp [List.dropWhile_cons, List.takeWhile_cons, hc, ih]
      · have hc' : p c = false := by simpa using hc
        simp [List.dropWhile_cons, List.takeWhile_cons, hc']

theorem takeWhile_len_imp (p : Char → Bool) :
    ∀ (s : List Char) k, k ≤ (s.takeWhile p).length → ∀ x ∈ s.take k, p x = true := by
  intro s
  induction s with
  | nil => intro k _ x hx; simp at hx
  | cons c rest ih =>
      intro k hk x hx
      by_cases hc : p c = true
      · cases k with
        | zero => simp at hx
        | succ m =>
            rw [List.takeWhile_cons, if_pos hc] at hk
            rcases (List.mem_cons).1 (by simpa using hx) with rfl | hxm
            · exact hc
            · exact ih m (by simpa using hk) x hxm
      · have hc' : p c = false := by simpa using hc
        rw [List.takeWhile_cons, if_neg (by simp [hc'])] at hk
        simp at hk
        subst hk
        simp at hx

theorem dropWhile_ne_nil_of_mem (a : Char) :
    ∀ l : List Char, a ∈ l → l.dropWhile (fun x => x != a) ≠ [] := by
  intro l
  induction l with
  | nil => intro h; simp at h
  | cons c cs ih =>
      intro hmem
      by_cases hca : c = a
      · subst hca
        simp [List.dropWhile_cons]
      · have : (c != a) = true := by simpa using hca
        rw [List.dropWhile_cons, if_pos this]
        rcases (List.mem_cons).1 hmem with h | h
        · exact absurd h.symm hca
        · exact ih h

theorem head?_append_ne_nil (l₁ l₂ : List Char) (h : l₁ ≠ []) :
    (l₁ ++ l₂).head? = l₁.head? := by
  cases l₁ with
  | nil => exact absurd rfl h
  | cons c cs => simp

theorem endsNonSpace_tail (a : Char) (l : List Char) (h : endsNonSpace (a :: l) = true) :
    endsNonSpace l = true := by
  cases l with
  | nil => rfl
  | cons b bs => exact h

theorem allSpace_endsNS : ∀ l : List Char, l ≠ [] → (∀ x ∈ l, pySpace x = true) →
    endsNonSpace l = false := by
  intro l
  induction l with
  | nil => intro h; exact absurd rfl h
  | cons c cs ih =>
      intro _ hall
      cases cs with
      | nil =>
          have := hall c (List.mem_cons_self _ _)
          simp [endsNonSpace, this]
      | cons d ds =>
          exact ih (by simp) fun x hx => hall x (List.mem_cons_of_mem _ hx)

theorem kw_cons : kw = '[' :: ("RECOMENDACION_IDS:").toList := by decide

theorem kw_len : kw.length = 19 := by decide

theorem kw_nospace : kw.all (fun c => !pySpace c) = true := by decide

theorem kw_inner_no_bracket : ∀ d, d < 19 → 0 < d → ¬((kw.drop d).head? = some '[') := by decide

theorem kw_ne_nil : kw ≠ [] := by decide

theorem pySpace_lbracket : pySpace '[' = false := by decide

/-- The keyword cannot occur starting strictly inside a prefix `pre` of
`pre ++ kw ++ X` unless it already occurs inside `pre` itself: an occurrence
reaching across the boundary would need a second `[` inside the keyword. -/
theorem noKwStart (pre X : List Char) (hpre : isSubstrOf kw pre = false) :
    ∀ i, i < pre.length → kw.isPrefixOf ((pre ++ kw ++ X).drop i) = false := by
  intro i hi
  by_contra hcon
  have h : kw.isPrefixOf ((pre ++ kw ++ X).drop i) = true := by
    cases hc : kw.isPrefixOf ((pre ++ kw ++ X).drop i) with
    | true => rfl
    | false => exact absurd hc hcon
  rw [List.append_assoc, List.drop_append_of_le_length (le_of_lt hi)] at h
  obtain ⟨Y, hY⟩ := (ipo_exists kw _).1 h
  have hd : (pre.drop i).length = pre.length - i := List.length_drop i pre
  have hdpos : 0 < (pre.drop i).length := by omega
  rcases Nat.lt_or_ge (pre.drop i).length 19 with hlt | hge
  · -- the occurrence crosses the boundary: character `(pre.drop i).length` of
    -- the keyword would be the `[` that opens the real keyword
    have hdrop : (pre.drop i ++ (kw ++ X)).drop (pre.drop i).length = kw ++ X :=
      drop_len_append _ _
    have hk19 : kw.length = 19 := kw_len
    have hdrop' : (kw ++ Y).drop (pre.drop i).length =
        kw.drop (pre.drop i).length ++ Y :=
      List.drop_append_of_le_length (by omega)
    rw [hY] at hdrop
    rw [hdrop'] at hdrop
    have hne : kw.drop (pre.drop i).length ≠ [] := by
      intro hnil
      have := congrArg List.length hnil
      rw [List.length_drop] at this
      simp [kw_len] at this
      omega
    have hheads : (kw.drop (pre.drop i).length ++ Y).head? = (kw ++ X).head? := by
      rw [hdrop]
    rw [head?_append_ne_nil _ _ hne, head?_append_ne_nil _ _ kw_ne_nil] at hheads
    have hkwhead : kw.head? = some '[' := by rw [kw_cons]; rfl
    rw [hkwhead] at hheads
    exact kw_inner_no_bracket (pre.drop i).length (by omega) hdpos hheads
  · -- the occurrence lies wholly inside `pre`
    have htake : (pre.drop i ++ (kw ++ X)).take 19 = (pre.drop i).take 19 :=
      take_append_le _ _ 19 (by omega)
    have htake' : (kw ++ Y).take 19 = kw := by
      have := take_len_append kw Y
      rwa [kw_len] at this
    rw [hY, htake'] at htake
    have hsub : isSubstrOf kw pre = true := by
      refine (isSubstrOf_iff kw pre).2 ⟨i, ?_⟩
      refine (ipo_exists kw _).2 ⟨(pre.drop i).drop 19, ?_⟩
      conv_lhs => rw [← List.take_append_drop 19 (pre.drop i)]
      rw [htake]
    rw [hsub] at hpre
    exact Bool.noConfusion hpre

/-- Appending pure whitespace to keyword-free text keeps it keyword-free: the
keyword contains no whitespace character. -/
theorem substr_append_space (pre ws : List Char) (hpre : isSubstrOf kw pre = false)
    (hws : ws.all pySpace = true) : isSubstrOf kw (pre ++ ws) = false := by
  by_contra hcon
  have h : isSubstrOf kw (pre ++ ws) = true := by
    cases hc : isSubstrOf kw (pre ++ ws) with
    | true => rfl
    | false => exact absurd hc hcon
  obtain ⟨i, hi⟩ := (isSubstrOf_iff kw _).1 h
  have hkwall := kw_nospace
  rcases Nat.lt_or_ge i pre.length with hlt | hge
  · rw [List.drop_append_of_le_length (le_of_lt hlt)] at hi
    obtain ⟨Y, hY⟩ := (ipo_exists kw _).1 hi
    have hd : (pre.drop i).length = pre.length - i := List.length_drop i pre
    rcases Nat.lt_or_ge (pre.drop i).length 19 with hlt2 | hge2
    · -- the tail of the keyword would consist of whitespace characters
      have hdrop : (pre.drop i ++ ws).drop (pre.drop i).length = ws := drop_len_append _ _
      have hk19 : kw.length = 19 := kw_len
      have hdrop' : (kw ++ Y).drop (pre.drop i).length =
          kw.drop (pre.drop i).length ++ Y :=
        List.drop_append_of_le_length (by omega)
      rw [hY, hdrop'] at hdrop
      have hne : kw.drop (pre.drop i).length ≠ [] := by
        intro hnil
        have := congrArg List.length hnil
        rw [List.length_drop] at this
        simp [kw_len] at this
        omega
      cases hkd : kw.drop (pre.drop i).length with
      | nil => exact absurd hkd hne
      | cons c cs =>
          have hckw : c ∈ kw := List.drop_subset _ _ (by rw [hkd]; exact List.mem_cons_self _ _)
          have hcws : c ∈ ws := by
            rw [hkd] at hdrop
            rw [← hdrop]
            exact List.mem_append_left _ (List.mem_cons_self _ _)
          have h1 : (!pySpace c) = true := by
            rw [List.all_eq_true] at hkwall
            exact hkwall c hckw
          have h2 : pySpace c = true := by
            rw [List.all_eq_true] at hws
            exact hws c hcws
          rw [h2] at h1
          exact Bool.noConfusion h1
    · -- the occurrence lies wholly inside `pre`
      have htake : (pre.drop i ++ ws).take 19 = (pre.drop i).take 19 :=
        take_append_le _ _ 19 (by omega)
      have htake' : (kw ++ Y).take 19 = kw := by
        have := take_len_append kw Y
        rwa [kw_len] at this
      rw [hY, htake'] at htake
      have hsub : isSubstrOf kw pre = true := by
        refine (isSubstrOf_iff kw pre).2 ⟨i, ?_⟩
        refine (ipo_exists kw _).2 ⟨(pre.drop i).drop 19, ?_⟩
        conv_lhs => rw [← List.take_append_drop 19 (pre.drop i)]
        rw [htake]
      rw [hsub] at hpre
      exact Bool.noConfusion hpre
  · -- the occurrence would start inside the whitespace run
    rw [drop_append_ge _ _ i hge] at hi
    cases hws' : ws.drop (i - pre.length) with
    | nil =>
        rw [hws'] at hi
        obtain ⟨t, ht⟩ := (ipo_exists kw []).1 hi
        rw [kw_cons] at ht
        simp at ht
    | cons w wr =>
        rw [hws'] at hi
        obtain ⟨t, ht⟩ := (ipo_exists kw _).1 hi
        rw [kw_cons] at ht
        have hw : w = '[' := by
          have := congrArg List.head? ht
          simpa using this
        have hwmem : w ∈ ws := List.drop_subset _ _ (by rw [hws']; exact List.mem_cons_self _ _)
        have h2 : pySpace w = true := by
          rw [List.all_eq_true] at hws
          exact hws w hwmem
        rw [hw, pySpace_lbracket] at h2
        exact Bool.noConfusion h2

theorem bne_false (b : Bool) (h : b ≠ true) : b = false := by
  cases b with
  | true => exact absurd rfl h
  | false => rfl

theorem findMarker_cons (c : Char) (rest : List Char) :
    findMarker (c :: rest) =
      if kw.isPrefixOf (c :: rest) && (((c :: rest).drop kw.length).contains ']') then
        some ((((c :: rest).drop kw.length).takeWhile (fun x => x != ']')).dropWhile pySpace)
      else findMarker rest := rfl

theorem findMarker_none (s : List Char) (h : isSubstrOf kw s = false) : findMarker s = none := by
  induction s with
  | nil => rfl
  | cons c rest ih =>
      have h1 : kw.isPrefixOf (c :: rest) = false := by
        refine bne_false _ fun hp => ?_
        have : isSubstrOf kw (c :: rest) = true := by simp [isSubstrOf, hp]
        rw [this] at h
        exact Bool.noConfusion h
      rw [findMarker_cons, h1]
      simp only [Bool.false_and, if_false]
      exact ih (substr_cons_false _ _ _ h)

theorem findMarker_at (pre payload post : List Char) (hpre : isSubstrOf kw pre = false)
    (hpay : payload.contains ']' = false) :
    findMarker (pre ++ kw ++ payload ++ ']' :: post) = some (payload.dropWhile pySpace) := by
  induction pre with
  | nil =>
      simp only [List.nil_append, List.append_assoc]
      have hsplit : kw ++ (payload ++ ']' :: post) =
          '[' :: (("RECOMENDACION_IDS:").toList ++ (payload ++ ']' :: post)) := by
        rw [kw_cons]; rfl
      rw [hsplit, findMarker_cons, ← hsplit]
      have h1 : kw.isPrefixOf (kw ++ (payload ++ ']' :: post)) = true := ipo_self_append _ _
      have h2 : (kw ++ (payload ++ ']' :: post)).drop kw.length = payload ++ ']' :: post :=
        drop_len_append _ _
      rw [h1, h2, contains_mid]
      simp only [Bool.and_self, if_true]
      have h3 : (payload ++ ']' :: post).takeWhile (fun x => x != ']') = payload := by
        refine takeWhile_mid _ _ _ _ (fun x hx => ?_) (by simp)
        have := contains_false_forall _ _ hpay x hx
        simpa using this
      rw [h3]
  | cons a pre' ih =>
      have h0 : kw.isPrefixOf (((a :: pre') ++ kw ++ (payload ++ ']' :: post)).drop 0) = false :=
        noKwStart (a :: pre') (payload ++ ']' :: post) hpre 0 (by simp)
      simp only [List.drop_zero] at h0
      have hform : (a :: pre') ++ kw ++ (payload ++ ']' :: post) =
          a :: (pre' ++ kw ++ payload ++ ']' :: post) := by
        simp [List.append_assoc]
      rw [hform] at h0
      have goalform : (a :: pre') ++ kw ++ payload ++ ']' :: post =
          a :: (pre' ++ kw ++ payload ++ ']' :: post) := by
        simp [List.append_assoc]
      rw [goalform, findMarker_cons, h0]
      simp only [Bool.false_and, if_false]
      exact ih (substr_cons_false _ _ _ hpre)

theorem bnot_true (b : Bool) (h : (!b) = true) : b = false := by
  cases b with
  | true => exact Bool.noConfusion h
  | false => rfl

theorem substr_nil_kw : isSubstrOf kw [] = false := by decide

theorem substr_drop_imp (pat l : List Char) (n : Nat)
    (h : isSubstrOf pat (l.drop n) = true) : isSubstrOf pat l = true := by
  obtain ⟨i, hi⟩ := (isSubstrOf_iff _ _).1 h
  rw [List.drop_drop] at hi
  exact (isSubstrOf_iff _ _).2 ⟨_, hi⟩

theorem substr_dropWhile_false (pat l : List Char) (p : Char → Bool)
    (h : isSubstrOf pat l = false) : isSubstrOf pat (l.dropWhile p) = false := by
  refine bne_false _ fun hc => ?_
  rw [dropWhile_eq_drop] at hc
  have hl := substr_drop_imp pat l _ hc
  rw [hl] at h
  exact Bool.noConfusion h

theorem endsNonSpace_dropWhile (l : List Char) (p : Char → Bool)
    (h : endsNonSpace l = true) : endsNonSpace (l.dropWhile p) = true := by
  induction l with
  | nil => exact h
  | cons a l ih =>
      by_cases ha : p a = true
      · rw [List.dropWhile_cons, if_pos ha]
        exact ih (endsNonSpace_tail _ _ h)
      · rw [List.dropWhile_cons, if_neg ha]
        exact h

theorem dropWhile_nil_all (l : List Char) (p : Char → Bool)
    (h : l.dropWhile p = []) : ∀ x ∈ l, p x = true := by
  induction l with
  | nil => intro x hx; simp at hx
  | cons a l ih =>
      intro x hx
      by_cases ha : p a = true
      · rw [List.dropWhile_cons, if_pos ha] at h
        rcases (List.mem_cons).1 hx with rfl | hx'
        · exact ha
        · exact ih h x hx'
      · rw [List.dropWhile_cons, if_neg ha] at h
        exact absurd h (by simp)

theorem dropWhile_head_not (l : List Char) (p : Char → Bool) (c : Char) (r : List Char)
    (h : l.dropWhile p = c :: r) : p c = false := by
  induction l with
  | nil => exact absurd h (by simp)
  | cons a l ih =>
      by_cases ha : p a = true
      · rw [List.dropWhile_cons, if_pos ha] at h
        exact ih h
      · rw [List.dropWhile_cons, if_neg ha] at h
        cases h
        simpa using ha

theorem smCond_at (ws payload rest : List Char) (hws : ws.all pySpace = true)
    (hpay : payload.contains ']' = false) :
    smCond (ws ++ kw ++ payload ++ ']' :: rest) = true ∧
    smTarget (ws ++ kw ++ payload ++ ']' :: rest) = rest.dropWhile pySpace := by
  have hassoc : ws ++ kw ++ payload ++ ']' :: rest =
      ws ++ (kw ++ (payload ++ ']' :: rest)) := by simp [List.append_assoc]
  have hwsall : ∀ x ∈ ws, pySpace x = true := (List.all_eq_true).1 hws
  have hkwX : (kw ++ (payload ++ ']' :: rest)).dropWhile pySpace =
      kw ++ (payload ++ ']' :: rest) := by
    rw [kw_cons, List.cons_append]
    exact dropWhile_head_false _ _ _ pySpace_lbracket
  have hdw : (ws ++ kw ++ payload ++ ']' :: rest).dropWhile pySpace =
      kw ++ (payload ++ ']' :: rest) := by
    rw [hassoc, dropWhile_append_all _ _ _ hwsall, hkwX]
  have hdrop : (kw ++ (payload ++ ']' :: rest)).drop kw.length = payload ++ ']' :: rest :=
    drop_len_append _ _
  constructor
  · simp only [smCond, hdw, hdrop]
    rw [ipo_self_append, contains_mid]
    rfl
  · simp only [smTarget, hdw, hdrop]
    have h1 : (payload ++ ']' :: rest).dropWhile (fun x => x != ']') = ']' :: rest := by
      refine dropWhile_mid _ _ _ _ (fun x hx => ?_) (by simp)
      have := contains_false_forall _ _ hpay x hx
      simpa using this
    rw [h1]
    simp

theorem smTarget_len (s : List Char) (h : smCond s = true) :
    (smTarget s).length + 20 ≤ s.length := by
  simp only [smCond, Bool.and_eq_true] at h
  obtain ⟨h1, h2⟩ := h
  obtain ⟨t, ht⟩ := (ipo_exists _ _).1 h1
  have hk19 : kw.length = 19 := kw_len
  have l1 : (s.dropWhile pySpace).length ≤ s.length := by
    rw [dropWhile_eq_drop, List.length_drop]; omega
  have l2 : (s.dropWhile pySpace).length = 19 + t.length := by
    rw [ht]; simp [kw_len]
  have hafter : (s.dropWhile pySpace).drop kw.length = t := by
    rw [ht, drop_len_append]
  have hne : t.dropWhile (fun x => x != ']') ≠ [] := by
    rw [hafter] at h2
    exact dropWhile_ne_nil_of_mem _ _ ((contains_iff_mem _ _).1 h2)
  have l3 : (t.dropWhile (fun x => x != ']')).length ≤ t.length := by
    rw [dropWhile_eq_drop, List.length_drop]; omega
  have l4 : 1 ≤ (t.dropWhile (fun x => x != ']')).length := by
    cases hc : t.dropWhile (fun x => x != ']') with
    | nil => exact absurd hc hne
    | cons _ _ => simp [hc]
  have l5 : (((t.dropWhile (fun x => x != ']')).drop 1).dropWhile pySpace).length ≤
      (t.dropWhile (fun x => x != ']')).length - 1 := by
    rw [dropWhile_eq_drop, List.length_drop, List.length_drop]
    omega
  simp only [smTarget, hafter]
  omega

theorem sm_fuel : ∀ f₁ : Nat, ∀ s : List Char, ∀ f₂ : Nat, s.length ≤ f₁ → s.length ≤ f₂ →
    stripMarkersF f₁ s = stripMarkersF f₂ s := by
  intro f₁
  induction f₁ with
  | zero =>
      intro s f₂ h1 _
      have hs : s = [] := List.eq_nil_of_length_eq_zero (Nat.le_zero.mp (by simpa using h1))
      subst hs
      cases f₂ <;> rfl
  | succ g ih =>
      intro s f₂ h1 h2
      cases s with
      | nil => cases f₂ <;> rfl
      | cons c rest =>
          cases f₂ with
          | zero => simp at h2
          | succ g2 =>
              have hl : (c :: rest).length = rest.length + 1 := by simp
              show stripMarkersF (g + 1) (c :: rest) = stripMarkersF (g2 + 1) (c :: rest)
              simp only [stripMarkersF]
              cases hc : smCond (c :: rest) with
              | true =>
                  rw [if_pos rfl, if_pos rfl]
                  have hb := smTarget_len (c :: rest) hc
                  exact ih (smTarget (c :: rest)) g2 (by omega) (by omega)
              | false =>
                  rw [if_neg Bool.false_ne_true, if_neg Bool.false_ne_true]
                  rw [ih rest g2 (by omega) (by omega)]

theorem stripMarkersF_id : ∀ f : Nat, ∀ s : List Char, s.length ≤ f →
    isSubstrOf kw s = false → stripMarkersF f s = s := by
  intro f
  induction f with
  | zero => intro s _ _; rfl
  | succ g ih =>
      intro s hl hsub
      cases s with
      | nil => rfl
      | cons c rest =>
          have hc : smCond (c :: rest) = false := by
            refine bne_false _ fun hcc => ?_
            simp only [smCond, Bool.and_eq_true] at hcc
            obtain ⟨h1, _⟩ := hcc
            rw [dropWhile_eq_drop] at h1
            have : isSubstrOf kw (c :: rest) = true := (isSubstrOf_iff _ _).2 ⟨_, h1⟩
            rw [this] at hsub
            exact Bool.noConfusion hsub
          show stripMarkersF (g + 1) (c :: rest) = c :: rest
          simp only [stripMarkersF]
          rw [if_neg (by simp [hc])]
          rw [ih rest (by simp at hl; omega) (substr_cons_false _ _ _ hsub)]

theorem stripMarkersF_copy : ∀ (pre : List Char), ∀ (tail : List Char) (f : Nat),
    (pre ++ tail).length ≤ f → endsNonSpace pre = true →
    (∀ i, i < pre.length → kw.isPrefixOf ((pre ++ tail).drop i) = false) →
    stripMarkersF f (pre ++ tail) = pre ++ stripMarkersF (f - pre.length) tail := by
  intro pre
  induction pre with
  | nil => intro tail f _ _ _; simp
  | cons a pre' ih =>
      intro tail f hf hend hno
      have hlen : ((a :: pre') ++ tail).length = pre'.length + tail.length + 1 := by simp
      have hlen2 : (pre' ++ tail).length = pre'.length + tail.length := by simp
      obtain ⟨g, rfl⟩ : ∃ g, f = g + 1 := ⟨f - 1, by omega⟩
      have hcond : smCond (a :: (pre' ++ tail)) = false := by
        refine bne_false _ fun hcc => ?_
        simp only [smCond, Bool.and_eq_true] at hcc
        obtain ⟨h1, _⟩ := hcc
        rw [dropWhile_eq_drop] at h1
        rcases Nat.lt_or_ge ((a :: (pre' ++ tail)).takeWhile pySpace).length
            (a :: pre').length with hjlt | hjge
        · have hj := hno _ hjlt
          rw [List.cons_append] at hj
          rw [hj] at h1
          exact Bool.noConfusion h1
        · have hall : ∀ x ∈ ((a :: (pre' ++ tail)).take (a :: pre').length), pySpace x = true :=
            takeWhile_len_imp _ _ _ hjge
          have htake : ((a :: pre') ++ tail).take (a :: pre').length = a :: pre' :=
            take_len_append _ _
          rw [List.cons_append] at htake
          rw [htake] at hall
          have hbad := allSpace_endsNS (a :: pre') (by simp) hall
          rw [hbad] at hend
          exact Bool.noConfusion hend
      show stripMarkersF (g + 1) ((a :: pre') ++ tail) =
        (a :: pre') ++ stripMarkersF (g + 1 - (a :: pre').length) tail
      rw [List.cons_append]
      simp only [stripMarkersF]
      rw [if_neg (by simp [hcond])]
      rw [ih tail g (by omega) (endsNonSpace_tail _ _ hend)
        (fun i hi => by
          have hsucc := hno (i + 1) (by simp at hi ⊢; omega)
          rw [List.cons_append] at hsucc
          simpa using hsucc)]
      have harith : g + 1 - (a :: pre').length = g - pre'.length := by
        simp [Nat.succ_sub_succ]
      rw [harith, List.cons_append]

theorem stripMarkersF_match (ws payload rest : List Char) (g : Nat)
    (hws : ws.all pySpace = true) (hpay : payload.contains ']' = false) :
    stripMarkersF (g + 1) (ws ++ kw ++ payload ++ ']' :: rest) =
      stripMarkersF g (rest.dropWhile pySpace) := by
  obtain ⟨hc, ht⟩ := smCond_at ws payload rest hws hpay
  cases hs : ws ++ kw ++ payload ++ ']' :: rest with
  | nil =>
      exfalso
      have := congrArg List.length hs
      simp [kw_len] at this
  | cons c rest' =>
      rw [hs] at hc ht
      show stripMarkersF (g + 1) (c :: rest') = _
      simp only [stripMarkersF]
      rw [if_pos hc, ht]

theorem renderSegs_cons (ws payload gap : List Char) (rest : List MarkerSeg) :
    renderSegs (⟨ws, payload, gap⟩ :: rest) =
      ws ++ kw ++ payload ++ ']' :: (gap ++ renderSegs rest) := rfl

theorem gapsJoin_cons (ws payload gap : List Char) (rest : List MarkerSeg) :
    gapsJoin (⟨ws, payload, gap⟩ :: rest) = gap.dropWhile pySpace ++ gapsJoin rest := rfl

theorem renderSegs_cons_len (ws payload gap : List Char) (rest : List MarkerSeg) :
    (renderSegs (⟨ws, payload, gap⟩ :: rest)).length =
      ws.length + payload.length + gap.length + (renderSegs rest).length + 20 := by
  rw [renderSegs_cons]
  simp only [List.length_append, List.length_cons, kw_len]
  omega

theorem dropWhile_space_kw (ws X : List Char) (hws : ws.all pySpace = true) :
    (ws ++ (kw ++ X)).dropWhile pySpace = kw ++ X := by
  rw [dropWhile_append_all _ _ _ ((List.all_eq_true).1 hws)]
  rw [kw_cons, List.cons_append]
  rw [dropWhile_head_false _ _ _ pySpace_lbracket]

/-- Core property of the marker-removal pass: on a text in canonical marker
decomposition it deletes every marker together with its adjacent whitespace
runs and keeps everything else. -/
theorem stripMarkersF_main : ∀ n : Nat, ∀ segs : List MarkerSeg, segs.length ≤ n →
    segs ≠ [] → segsOkB segs = true → ∀ (pre : List Char) (f : Nat),
    (pre ++ renderSegs segs).length ≤ f →
    isSubstrOf kw pre = false → endsNonSpace pre = true →
    stripMarkersF f (pre ++ renderSegs segs) = pre ++ gapsJoin segs := by
  intro n
  induction n with
  | zero =>
      intro segs hlen hne
      cases segs with
      | nil => exact absurd rfl hne
      | cons s r => simp at hlen
  | succ m ih =>
      intro segs hlen hne hok pre f hf hpre hend
      cases segs with
      | nil => exact absurd rfl hne
      | cons seg rest =>
          obtain ⟨ws, payload, gap⟩ := seg
          simp only [segsOkB, Bool.and_eq_true] at hok
          obtain ⟨⟨⟨hws, hpayB⟩, hgkwB⟩, hrest⟩ := hok
          have hpay : payload.contains ']' = false := bnot_true _ hpayB
          have hgkw : isSubstrOf kw gap = false := bnot_true _ hgkwB
          have hform : pre ++ renderSegs (⟨ws, payload, gap⟩ :: rest) =
              (pre ++ ws) ++ kw ++ (payload ++ ']' :: (gap ++ renderSegs rest)) := by
            rw [renderSegs_cons]
            simp [List.append_assoc]
          have hno : ∀ i, i < pre.length →
              kw.isPrefixOf ((pre ++ renderSegs (⟨ws, payload, gap⟩ :: rest)).drop i) = false := by
            intro i hi
            rw [hform]
            exact noKwStart (pre ++ ws) _ (substr_append_space _ _ hpre hws) i
              (by simp only [List.length_append]; omega)
          rw [stripMarkersF_copy pre _ f hf hend hno]
          have hlenR := renderSegs_cons_len ws payload gap rest
          have hlenT : (pre ++ renderSegs (⟨ws, payload, gap⟩ :: rest)).length =
              pre.length + (renderSegs (⟨ws, payload, gap⟩ :: rest)).length := by
            simp
          obtain ⟨g, hg⟩ : ∃ g, f - pre.length = g + 1 := ⟨f - pre.length - 1, by omega⟩
          rw [hg, renderSegs_cons, stripMarkersF_match ws payload _ g hws hpay]
          cases rest with
          | nil =>
              have h0 : (renderSegs ([] : List MarkerSeg)).length = 0 := rfl
              have hlendw : (gap.dropWhile pySpace).length ≤ gap.length := by
                rw [dropWhile_eq_drop, List.length_drop]
                omega
              have hgapdw : (gap ++ renderSegs ([] : List MarkerSeg)).dropWhile pySpace =
                  gap.dropWhile pySpace := by
                show (gap ++ []).dropWhile pySpace = gap.dropWhile pySpace
                rw [List.append_nil]
              rw [hgapdw, stripMarkersF_id g (gap.dropWhile pySpace) (by omega)
                (substr_dropWhile_false _ _ _ hgkw)]
              simp [gapsJoin_cons, gapsJoin]
          | cons seg' rest' =>
              have hrest' : endsNonSpace gap = true ∧ segsOkB (seg' :: rest') = true := by
                simpa using hrest
              obtain ⟨hendgap, hok'⟩ := hrest'
              obtain ⟨ws', payload', gap'⟩ := seg'
              have hws' : ws'.all pySpace = true := by
                have hok'' := hok'
                simp only [segsOkB, Bool.and_eq_true] at hok''
                exact hok''.1.1.1
              have hlenR' := renderSegs_cons_len ws' payload' gap' rest'
              have hlendw : (gap.dropWhile pySpace).length ≤ gap.length := by
                rw [dropWhile_eq_drop, List.length_drop]
                omega
              cases hgap : gap.dropWhile pySpace with
              | nil =>
                  have hallsp : ∀ x ∈ gap, pySpace x = true := dropWhile_nil_all _ _ hgap
                  have hdw : (gap ++ renderSegs (⟨ws', payload', gap'⟩ :: rest')).dropWhile
                      pySpace = renderSegs (⟨[], payload', gap'⟩ :: rest') := by
                    rw [dropWhile_append_all _ _ _ hallsp]
                    rw [show renderSegs (⟨ws', payload', gap'⟩ :: rest') =
                        ws' ++ (kw ++ (payload' ++ ']' :: (gap' ++ renderSegs rest'))) from by
                      rw [renderSegs_cons]
                      simp [List.append_assoc]]
                    rw [dropWhile_space_kw _ _ hws', renderSegs_cons]
                    simp [List.append_assoc]
                  rw [hdw]
                  have hokmod : segsOkB (⟨[], payload', gap'⟩ :: rest') = true := by
                    simp only [segsOkB, Bool.and_eq_true] at hok' ⊢
                    obtain ⟨⟨⟨h1, h2⟩, h3⟩, h5⟩ := hok'
                    exact ⟨⟨⟨rfl, h2⟩, h3⟩, h5⟩
                  have hlenmod := renderSegs_cons_len ([] : List Char) payload' gap' rest'
                  simp only [List.length_nil] at hlenmod
                  have hmain := ih (⟨[], payload', gap'⟩ :: rest')
                    (by simp at hlen ⊢; omega) (by simp) hokmod [] g
                    (by simp only [List.nil_append]; omega) substr_nil_kw rfl
                  simp only [List.nil_append] at hmain
                  rw [hmain]
                  conv_rhs => rw [gapsJoin_cons, hgap]
                  simp [gapsJoin_cons]
              | cons cg gt =>
                  have hcg : pySpace cg = false := dropWhile_head_not _ _ _ _ hgap
                  have hdw : (gap ++ renderSegs (⟨ws', payload', gap'⟩ :: rest')).dropWhile
                      pySpace = (cg :: gt) ++ renderSegs (⟨ws', payload', gap'⟩ :: rest') := by
                    conv_lhs => rw [← List.takeWhile_append_dropWhile (p := pySpace) (l := gap)]
                    rw [List.append_assoc]
                    rw [dropWhile_append_all _ _ _ fun x hx => List.mem_takeWhile_imp hx]
                    rw [hgap, List.cons_append]
                    rw [dropWhile_head_false _ _ _ hcg]
                  rw [hdw]
                  have hendgap' : endsNonSpace (cg :: gt) = true := by
                    rw [← hgap]
                    exact endsNonSpace_dropWhile _ _ hendgap
                  have hgkw' : isSubstrOf kw (cg :: gt) = false := by
                    rw [← hgap]
                    exact substr_dropWhile_false _ _ _ hgkw
                  have hlencg : (cg :: gt).length ≤ gap.length := by
                    rw [← hgap]
                    exact hlendw
                  have hmain := ih (⟨ws', payload', gap'⟩ :: rest')
                    (by simp at hlen ⊢; omega) (by simp) hok' (cg :: gt) g
                    (by simp only [List.length_append]; omega) hgkw' hendgap'
                  rw [hmain, show gapsJoin (⟨ws, payload, gap⟩ ::
                      ⟨ws', payload', gap'⟩ :: rest') =
                      (cg :: gt) ++ gapsJoin (⟨ws', payload', gap'⟩ :: rest') from by
                    rw [gapsJoin_cons, hgap]]

/-- `stripMarkers` on a canonically decomposed text: markers and their
adjacent whitespace go, the gaps stay. -/
theorem stripMarkers_main (segs : List MarkerSeg) (pre : List Char)
    (hne : segs ≠ []) (hok : segsOkB segs = true)
    (hpre : isSubstrOf kw pre = false) (hend : endsNonSpace pre = true) :
    stripMarkers (pre ++ renderSegs segs) = pre ++ gapsJoin segs :=
  stripMarkersF_main segs.length segs (le_refl _) hne hok pre _ (le_refl _) hpre hend

theorem pyStrip_exists (s : List Char) : ∃ a b, s = a ++ pyStrip s ++ b := by
  refine ⟨s.takeWhile pySpace, (((s.dropWhile pySpace).reverse.takeWhile pySpace)).reverse, ?_⟩
  rw [List.append_assoc]
  conv_lhs => rw [← List.takeWhile_append_dropWhile (p := pySpace) (l := s)]
  congr 1
  simp only [pyStrip]
  conv_lhs => rw [← List.reverse_reverse (s.dropWhile pySpace),
    ← List.takeWhile_append_dropWhile (p := pySpace) (l := (s.dropWhile pySpace).reverse)]
  rw [List.reverse_append]

theorem substr_pyStrip (pat s : List Char) (h : isSubstrOf pat (pyStrip s) = true) :
    isSubstrOf pat s = true := by
  obtain ⟨a, b, hs⟩ := pyStrip_exists s
  rw [hs]
  exact substr_middle _ _ _ _ h

theorem split_ne_nil : ∀ s : List Char, splitOnComma s ≠ [] := by
  intro s
  cases s with
  | nil => simp [splitOnComma]
  | cons c rest =>
      by_cases hc : c = ','
      · subst hc; simp [splitOnComma]
      · have hc' : (c == ',') = false := by simpa using hc
        simp only [splitOnComma, hc', if_false]
        cases hsp : splitOnComma rest with
        | nil => simp
        | cons t ts => simp

theorem split_append_comma : ∀ l₁ l₂ : List Char,
    splitOnComma (l₁ ++ ',' :: l₂) = splitOnComma l₁ ++ splitOnComma l₂ := by
  intro l₁
  induction l₁ with
  | nil =>
      intro l₂
      simp [splitOnComma]
  | cons c l₁' ih =>
      intro l₂
      by_cases hc : c = ','
      · subst hc
        rw [List.cons_append]
        have e1 : splitOnComma (',' :: (l₁' ++ ',' :: l₂)) =
            [] :: splitOnComma (l₁' ++ ',' :: l₂) := by
          simp [splitOnComma]
        have e2 : splitOnComma (',' :: l₁') = [] :: splitOnComma l₁' := by
          simp [splitOnComma]
        rw [e1, ih, e2, List.cons_append]
      · have hc' : (c == ',') = false := by simpa using hc
        rw [List.cons_append]
        have e1 : splitOnComma (c :: (l₁' ++ ',' :: l₂)) =
            match splitOnComma (l₁' ++ ',' :: l₂) with
            | t :: ts => (c :: t) :: ts
            | [] => [[c]] := by
          simp [splitOnComma, hc']
        have e2 : splitOnComma (c :: l₁') =
            match splitOnComma l₁' with
            | t :: ts => (c :: t) :: ts
            | [] => [[c]] := by
          simp [splitOnComma, hc']
        rw [e1, ih, e2]
        cases hsp : splitOnComma l₁' with
        | nil => exact absurd hsp (split_ne_nil l₁')
        | cons t ts => simp [hsp]

theorem split_append_nocomma : ∀ l₁ l₂ : List Char, (∀ x ∈ l₁, ¬(x = ',')) →
    ∃ h tl, splitOnComma l₂ = h :: tl ∧ splitOnComma (l₁ ++ l₂) = (l₁ ++ h) :: tl := by
  intro l₁
  induction l₁ with
  | nil =>
      intro l₂ _
      cases hsp : splitOnComma l₂ with
      | nil => exact absurd hsp (split_ne_nil l₂)
      | cons h tl => exact ⟨h, tl, rfl, by simp [hsp]⟩
  | cons c l₁' ih =>
      intro l₂ hnc
      have hc : ¬(c = ',') := hnc c (List.mem_cons_self _ _)
      have hc' : (c == ',') = false := by simpa using hc
      obtain ⟨h, tl, h1, h2⟩ := ih l₂ fun x hx => hnc x (List.mem_cons_of_mem _ hx)
      refine ⟨h, tl, h1, ?_⟩
      rw [List.cons_append]
      have e1 : splitOnComma (c :: (l₁' ++ l₂)) =
          match splitOnComma (l₁' ++ l₂) with
          | t :: ts => (c :: t) :: ts
          | [] => [[c]] := by
        simp [splitOnComma, hc']
      rw [e1, h2]
      rfl

theorem parseIds_nonneg (s : List Char) : ∀ x ∈ parseIds s, 0 ≤ x := by
  intro x hx
  simp only [parseIds, List.mem_filterMap] at hx
  obtain ⟨tok, _, hf⟩ := hx
  split at hf
  · have hxv : Int.ofNat (digitsVal (pyStrip tok)) = x := by
      simpa using hf
    subst hxv
    exact Int.ofNat_nonneg _
  · exact absurd hf (by simp)

theorem parseIds_append_comma (s l₂ : List Char) :
    parseIds (s ++ ',' :: l₂) = parseIds s ++ parseIds l₂ := by
  simp only [parseIds]
  rw [split_append_comma, List.filterMap_append]

theorem pyStrip_space_prepend (ws h : List Char) (hws : ws.all pySpace = true) :
    pyStrip (ws ++ h) = pyStrip h := by
  simp only [pyStrip]
  rw [dropWhile_append_all _ _ _ ((List.all_eq_true).1 hws)]

theorem parseIds_dropSpace (ws t : List Char) (hws : ws.all pySpace = true) :
    parseIds (ws ++ t) = parseIds t := by
  have hnc : ∀ x ∈ ws, ¬(x = ',') := by
    intro x hx heq
    have hsp := (List.all_eq_true).1 hws x hx
    rw [heq] at hsp
    rw [show pySpace ',' = false from by decide] at hsp
    exact Bool.noConfusion hsp
  obtain ⟨h, tl, h1, h2⟩ := split_append_nocomma ws t hnc
  simp only [parseIds, h1, h2, List.filterMap_cons]
  rw [pyStrip_space_prepend _ _ hws]

theorem parseIds_dropWhile_space (p : List Char) :
    parseIds (p.dropWhile pySpace) = parseIds p := by
  conv_rhs => rw [← List.takeWhile_append_dropWhile (p := pySpace) (l := p)]
  rw [parseIds_dropSpace _ _ ?hws]
  case hws =>
    rw [List.all_eq_true]
    intro x hx
    exact List.mem_takeWhile_imp hx

theorem parseIds_ite_empty (g : List Char) :
    (if g.isEmpty then ([] : List Int) else parseIds g) = parseIds g := by
  cases g with
  | nil => rfl
  | cons c rest => rfl

theorem splitOnComma_chars : ∀ s : List Char, ∀ tok ∈ splitOnComma s, ∀ c ∈ tok, c ∈ s := by
  intro s
  induction s with
  | nil =>
      intro tok htok c hc
      simp only [splitOnComma, List.mem_singleton] at htok
      subst htok
      simp at hc
  | cons d rest ih =>
      intro tok htok c hc
      simp only [splitOnComma] at htok
      by_cases hd : (d == ',') = true
      · rw [if_pos hd] at htok
        rcases List.mem_cons.1 htok with h | h
        · subst h
          simp at hc
        · exact List.mem_cons_of_mem d (ih tok h c hc)
      · rw [if_neg hd] at htok
        cases hsp : splitOnComma rest with
        | nil =>
            rw [hsp] at htok
            simp only [List.mem_singleton] at htok
            subst htok
            rcases List.mem_cons.1 hc with h | h
            · exact h ▸ List.mem_cons_self d rest
            · simp at h
        | cons t ts =>
            rw [hsp] at htok
            rcases List.mem_cons.1 htok with h | h
            · subst h
              rcases List.mem_cons.1 hc with h | h
              · exact h ▸ List.mem_cons_self d rest
              · have ht : t ∈ splitOnComma rest := hsp ▸ List.mem_cons_self t ts
                exact List.mem_cons_of_mem d (ih t ht c h)
            · have ht : tok ∈ splitOnComma rest := hsp ▸ List.mem_cons_of_mem t h
              exact List.mem_cons_of_mem d (ih tok ht c hc)

theorem pyStrip_subset (s : List Char) : ∀ c ∈ pyStrip s, c ∈ s := by
  intro c hc
  obtain ⟨a, b, hab⟩ := pyStrip_exists s
  rw [hab]
  exact List.mem_append.2 (Or.inl (List.mem_append.2 (Or.inr hc)))

theorem ascii_decimalChar (c : Char) (h : c.toNat < 128) :
    isDecimalDigitChar c = c.isDigit := by
  simp only [isDecimalDigitChar]
  rw [decide_eq_false (p := 0x660 ≤ c.toNat) (by omega),
      decide_eq_false (p := 0xFF10 ≤ c.toNat) (by omega)]
  simp

theorem ascii_pyDigitChar (c : Char) (h : c.toNat < 128) :
    pyIsDigitChar c = c.isDigit := by
  simp only [pyIsDigitChar, isDigitNotDecimalChar]
  rw [ascii_decimalChar c h,
      decide_eq_false (p := c.toNat = 0xB9) (by omega),
      decide_eq_false (p := c.toNat = 0xB2) (by omega),
      decide_eq_false (p := c.toNat = 0xB3) (by omega)]
  simp

theorem all_congr_mem (l : List Char) (p q : Char → Bool)
    (h : ∀ c ∈ l, p c = q c) : l.all p = l.all q := by
  induction l with
  | nil => rfl
  | cons c rest ih =>
      simp only [List.all_cons]
      rw [h c (List.mem_cons_self c rest),
          ih fun x hx => h x (List.mem_cons_of_mem c hx)]

theorem foldl_dec (l : List Char) : ∀ a : Nat, (∀ c ∈ l, c.isDigit = true) →
    List.foldl (fun a c => 10 * a +
      (if c.isDigit then c.toNat - 48
       else if decide (0x660 ≤ c.toNat) && decide (c.toNat ≤ 0x669) then c.toNat - 0x660
       else c.toNat - 0xFF10)) a l =
    List.foldl (fun a c => 10 * a + (c.toNat - 48)) a l := by
  induction l with
  | nil => intro a _; rfl
  | cons c rest ih =>
      intro a h
      simp only [List.foldl_cons]
      rw [if_pos (h c (List.mem_cons_self c rest))]
      exact ih _ fun x hx => h x (List.mem_cons_of_mem c hx)

theorem decimalsVal_digits (l : List Char) (h : ∀ c ∈ l, c.isDigit = true) :
    decimalsVal l = digitsVal l := by
  simp only [decimalsVal, digitsVal]
  exact foldl_dec l 0 h

theorem parseTokensPy_ascii : ∀ toks : List (List Char),
    (∀ tok ∈ toks, ∀ c ∈ tok, c.toNat < 128) →
    parseTokensPy toks = Except.ok (toks.filterMap fun tok =>
      if !(pyStrip tok).isEmpty && (pyStrip tok).all Char.isDigit then
        some (Int.ofNat (digitsVal (pyStrip tok)))
      else none) := by
  intro toks
  induction toks with
  | nil => intro _; rfl
  | cons tok rest ih =>
      intro h
      have htokA : ∀ c ∈ pyStrip tok, c.toNat < 128 := fun c hc =>
        h tok (List.mem_cons_self tok rest) c (pyStrip_subset tok c hc)
      have hallP : (pyStrip tok).all pyIsDigitChar = (pyStrip tok).all Char.isDigit :=
        all_congr_mem _ _ _ fun c hc => ascii_pyDigitChar c (htokA c hc)
      have hallD : (pyStrip tok).all isDecimalDigitChar = (pyStrip tok).all Char.isDigit :=
        all_congr_mem _ _ _ fun c hc => ascii_decimalChar c (htokA c hc)
      have hrest := ih fun t ht c hc => h t (List.mem_cons_of_mem tok ht) c hc
      by_cases hkeep : (!(pyStrip tok).isEmpty && (pyStrip tok).all Char.isDigit) = true
      · have hk2 := hkeep
        simp only [Bool.and_eq_true] at hk2
        have hdig : (pyStrip tok).all Char.isDigit = true := hk2.2
        have hval : decimalsVal (pyStrip tok) = digitsVal (pyStrip tok) :=
          decimalsVal_digits _ (List.all_eq_true.1 hdig)
        simp only [parseTokensPy, hallP, hallD]
        rw [if_pos hkeep, if_pos hdig, hrest]
        simp only [List.filterMap_cons]
        rw [show (if !(pyStrip tok).isEmpty && (pyStrip tok).all Char.isDigit then
              some (Int.ofNat (digitsVal (pyStrip tok)))
            else none) = some (Int.ofNat (digitsVal (pyStrip tok))) from if_pos hkeep]
        rw [hval]
      · simp only [parseTokensPy, hallP]
        rw [if_neg hkeep, hrest]
        simp only [List.filterMap_cons]
        rw [show (if !(pyStrip tok).isEmpty && (pyStrip tok).all Char.isDigit then
              some (Int.ofNat (digitsVal (pyStrip tok)))
            else none) = none from if_neg hkeep]

theorem parseIdsPy_ascii (s : List Char) (hs : ∀ c ∈ s, c.toNat < 128) :
    parseIdsPy s = Except.ok (parseIds s) :=
  parseTokensPy_ascii (splitOnComma s)
    fun tok htok c hc => hs c (splitOnComma_chars s tok htok c hc)

/-- A concrete candidate with every optional field absent (tags defaulted to
the empty list, as pydantic's `default_factory=list` does). -/
def mkCand (n : Int) : Candidate :=
  ⟨n, ("A").toList, ("d").toList, 10, [], some [], none, none, none, none, none, none⟩

theorem filter_contains_nil (l : List Int) :
    (l.filter fun rid => ([] : List Int).contains rid) = [] := by
  induction l with
  | nil => rfl
  | cons a as ih =>
      rw [List.filter_cons, if_neg (by simp)]
      exact ih

theorem filteredIds_nil_none (text : List Char) : filteredIds text none = [] :=
  filter_contains_nil _

theorem filteredIds_nil_some (text : List Char) : filteredIds text (some []) = [] :=
  filter_contains_nil _

theorem reconcile_ids_mem (text : List Char) (cands : Option (List Candidate))
    (prev : Option (List Int)) :
    ∀ rid ∈ (parseAndReconcile text cands prev).recommendation_ids,
      rid ∈ filteredIds text cands := by
  intro rid hrid
  cases prev with
  | none => exact hrid
  | some p =>
      simp only [parseAndReconcile] at hrid
      by_cases hp : p.isEmpty = true
      · rw [if_pos hp] at hrid
        exact hrid
      · rw [if_neg hp] at hrid
        by_cases hi : ((filteredIds text cands).filter fun rid => p.contains rid).isEmpty = true
        · rw [if_pos hi] at hrid
          simp at hrid
        · rw [if_neg hi] at hrid
          exact (List.mem_filter.1 hrid).1

theorem reconcile_ids_nil (text : List Char) (cands : Option (List Candidate))
    (prev : Option (List Int)) (h : filteredIds text cands = []) :
    (parseAndReconcile text cands prev).recommendation_ids = [] := by
  cases prev with
  | none => exact h
  | some p =>
      simp only [parseAndReconcile, h]
      by_cases hp : p.isEmpty = true
      · rw [if_pos hp]
      · rw [if_neg hp]
        simp

/-- Claim C1: every identifier in the returned `recommendation_ids` is the id
of some candidate of the request, and the identifier list is empty whenever
the candidate list is absent or empty - for every model reply text and every
optional previous-identifier list. -/
theorem claim_C1 (text : List Char) (cands : Option (List Candidate))
    (prev : Option (List Int)) :
    ((parseAndReconcile text cands prev).recommendation_ids.all
      (fun rid => (candidateIds cands).contains rid)) = true ∧
    (parseAndReconcile text none prev).recommendation_ids = [] ∧
    (parseAndReconcile text (some []) prev).recommendation_ids = [] := by
  refine ⟨?_, ?_, ?_⟩
  · rw [List.all_eq_true]
    intro rid hrid
    have hmem := reconcile_ids_mem text cands prev rid hrid
    exact (List.mem_filter.1 hmem).2
  · exact reconcile_ids_nil text none prev (filteredIds_nil_none text)
  · exact reconcile_ids_nil text (some []) prev (filteredIds_nil_some text)

/-- Claim C2: with a non-empty previous-identifier list P, the result is the
intersection of the candidate-filtered list F with P kept in F's order when
that intersection is non-empty, and otherwise the empty list together with
the fixed fallback sentence. -/
theorem claim_C2 (text : List Char) (cands : Option (List Candidate)) (P : List Int)
    (hP : P ≠ []) :
    ((filteredIds text cands).filter (fun rid => P.contains rid) ≠ [] →
      parseAndReconcile text cands (some P) =
        ⟨cleanedText text, (filteredIds text cands).filter (fun rid => P.contains rid)⟩) ∧
    ((filteredIds text cands).filter (fun rid => P.contains rid) = [] →
      parseAndReconcile text cands (some P) = ⟨fallbackText, []⟩) := by
  have hPe : P.isEmpty = false := by
    cases P with
    | nil => exact absurd rfl hP
    | cons a as => rfl
  constructor
  · intro h
    have hi : ((filteredIds text cands).filter fun rid => P.contains rid).isEmpty = false := by
      cases hc : (filteredIds text cands).filter fun rid => P.contains rid with
      | nil => exact absurd hc h
      | cons a as => rfl
    simp only [parseAndReconcile, hPe, hi]
    rfl
  · intro h
    have hi : ((filteredIds text cands).filter fun rid => P.contains rid).isEmpty = true := by
      rw [h]; rfl
    simp only [parseAndReconcile, hPe, hi]
    rfl

theorem claim_C2_witness :
    parseAndReconcile (("Va bien. [RECOMENDACION_IDS: 1, 2]").toList)
        (some [mkCand 1, mkCand 2]) (some [2, 5]) = ⟨("Va bien.").toList, [2]⟩ ∧
    parseAndReconcile (("Va bien. [RECOMENDACION_IDS: 1, 2]").toList)
        (some [mkCand 1, mkCand 2]) (some [9]) = ⟨fallbackText, []⟩ := by
  constructor
  · have h := (claim_C2 (("Va bien. [RECOMENDACION_IDS: 1, 2]").toList)
      (some [mkCand 1, mkCand 2]) [2, 5] (by decide)).1 (by decide)
    exact h.trans (by decide)
  · exact (claim_C2 (("Va bien. [RECOMENDACION_IDS: 1, 2]").toList)
      (some [mkCand 1, mkCand 2]) [9] (by decide)).2 (by decide)

/-- Claim C3 counterexample: a marker-free reply text is NOT always returned
unchanged - when a non-empty previous-identifier list is supplied the
response text becomes the fixed fallback sentence. -/
theorem claim_C3_cex :
    (parseAndReconcile (("Hola").toList) none (some [1])).responseText = fallbackText ∧
    fallbackText ≠ ("Hola").toList := by
  exact ⟨by decide, by decide⟩

/-- Claim C3 as amended: for a reply text with no marker the identifier list
is always empty; the text is returned unchanged when the previous-identifier
list is absent or empty, and is the fallback sentence when a non-empty
previous-identifier list is supplied (its intersection with the empty working
list being empty). -/
theorem claim_C3_amended (text : List Char) (cands : Option (List Candidate))
    (h : isSubstrOf kw text = false) :
    parseAndReconcile text cands none = ⟨text, []⟩ ∧
    parseAndReconcile text cands (some []) = ⟨text, []⟩ ∧
    (∀ P : List Int, P ≠ [] → parseAndReconcile text cands (some P) = ⟨fallbackText, []⟩) := by
  have hfm := findMarker_none text h
  have hext : extractIds text = [] := by simp only [extractIds, hfm]
  have hcln : cleanedText text = text := by simp only [cleanedText, hfm]
  have hfil : filteredIds text cands = [] := by simp only [filteredIds, hext, List.filter_nil]
  refine ⟨?_, ?_, ?_⟩
  · simp only [parseAndReconcile, hfil, hcln]
  · simp only [parseAndReconcile, hfil, hcln]
    rfl
  · intro P hP
    have hPe : P.isEmpty = false := by
      cases P with
      | nil => exact absurd rfl hP
      | cons a as => rfl
    simp only [parseAndReconcile, hfil, hcln, hPe]
    rfl

theorem claim_C3_amended_witness :
    parseAndReconcile (("Hola amigos").toList) none none = ⟨("Hola amigos").toList, []⟩ ∧
    parseAndReconcile (("Hola amigos").toList) none (some [7]) = ⟨fallbackText, []⟩ := by
  have h := claim_C3_amended (("Hola amigos").toList) none (by decide)
  exact ⟨h.1, h.2.2 [7] (by decide)⟩

/-- Claim C4 counterexample: the claim's "malformed (non-numeric) tokens are
silently dropped and never raise" is false of line 116 under Python's
Unicode `isdigit`/`int` semantics.  On payload "3, ²" the superscript-two
token passes `isdigit` but `int` raises ValueError - `parseIdsPy` errors,
and line 136 turns that into a 503 - whereas the ASCII-only model
`parseIds` silently drops it and returns [3]; and the Arabic-Indic digit
payload is parsed to 5, not dropped, though it is no plain ASCII numeral. -/
theorem claim_C4_cex :
    parseIdsPy (("3, ²").toList) = Except.error () ∧
    parseIds (("3, ²").toList) = [3] ∧
    parseIdsPy (("٥").toList) = Except.ok [5] :=
  ⟨rfl, by decide, rfl⟩

/-- Claim C4 as amended: payload parsing splits on commas, trims each token,
and keeps the tokens Python's `isdigit` accepts.  On ASCII payloads these
are exactly the plain non-negative decimal numerals, converted in
left-to-right order with duplicates allowed, malformed tokens silently
dropped and no exception raised (`parseIdsPy` agrees with the total
`parseIds` there); appending a malformed ASCII token never changes the
result; every parsed identifier is non-negative; and the "3, abc, 5,, 7"
payload with candidates {3,5,7} yields [3,5,7] through the full pipeline.
Outside ASCII, a kept token holding a digit-typed non-decimal character
makes `int` raise ValueError, surfaced as a 503 (see the counterexample). -/
theorem claim_C4_amended :
    (∀ s : List Char, (∀ c ∈ s, c.toNat < 128) → parseIdsPy s = Except.ok (parseIds s)) ∧
    (∀ s : List Char, ∀ x ∈ parseIds s, 0 ≤ x) ∧
    (∀ s : List Char, parseIds (s ++ (",abc").toList) = parseIds s) ∧
    parseIdsPy (("3, abc, 5,, 7").toList) = Except.ok [3, 5, 7] ∧
    parseAndReconcile (("Listo. [RECOMENDACION_IDS: 3, abc, 5,, 7]").toList)
      (some [mkCand 3, mkCand 5, mkCand 7]) none = ⟨("Listo.").toList, [3, 5, 7]⟩ := by
  refine ⟨parseIdsPy_ascii, parseIds_nonneg, ?_, rfl, by decide⟩
  intro s
  have h1 : (",abc").toList = ',' :: ("abc").toList := rfl
  rw [h1, parseIds_append_comma]
  have h2 : parseIds (("abc").toList) = [] := by decide
  rw [h2, List.append_nil]

theorem claim_C4_witness :
    parseIdsPy (("3,4").toList) = Except.ok (parseIds (("3,4").toList)) ∧
    (0 : Int) ≤ 3 ∧
    parseIds (("9").toList ++ (",abc").toList) = parseIds (("9").toList) :=
  ⟨claim_C4_amended.1 (("3,4").toList) (by decide),
   claim_C4_amended.2.1 (("3,4").toList) 3 (by decide),
   claim_C4_amended.2.2.1 (("9").toList)⟩

/-- Claim C9: the handler consults the external model invoker exactly once
 - its result depends only on the first call's outcome - and any failure of
that single call is surfaced as one 503 "AI service unavailable" error whose
detail wraps the failure text; no success value is returned in that case. -/
theorem claim_C9 (request : RecommendationRequest)
    (f g : Nat → List Char → Except (List Char) (List Char)) (e : List Char)
    (hfg : f 0 = g 0) :
    get_recommendation_from_gemini request f = get_recommendation_from_gemini request g ∧
    (f 0 (buildPrompt request) = Except.error e →
      get_recommendation_from_gemini request f =
        Except.error ⟨503, ("El servicio de IA (Gemini) no está disponible: ").toList ++ e⟩) := by
  constructor
  · simp only [get_recommendation_from_gemini, hfg]
  · intro he
    simp only [get_recommendation_from_gemini, he]

theorem claim_C9_witness :
    get_recommendation_from_gemini ⟨("q").toList, ("u").toList, none, none, none, none⟩
        (fun _ _ => Except.error (("timeout").toList)) =
      Except.error ⟨503, ("El servicio de IA (Gemini) no está disponible: ").toList ++
        ("timeout").toList⟩ :=
  (claim_C9 ⟨("q").toList, ("u").toList, none, none, none, none⟩
    (fun _ _ => Except.error (("timeout").toList))
    (fun _ _ => Except.error (("timeout").toList)) (("timeout").toList) rfl).2 rfl

/-- Claim C6 counterexample: whitespace BEFORE the colon is not accepted - the
regex keyword is the literal "[RECOMENDACION_IDS:" - so with the reply
"Mira [RECOMENDACION_IDS : 7]" the marker is not located: no identifier is
extracted (the claim predicts [7]) and the text is returned unmodified. -/
theorem claim_C6_cex :
    parseAndReconcile (("Mira [RECOMENDACION_IDS : 7]").toList) (some [mkCand 7]) none =
      ⟨("Mira [RECOMENDACION_IDS : 7]").toList, []⟩ := by
  decide

/-- Claim C6 as amended: the marker is located by the fixed case-sensitive
keyword immediately followed by the colon, with arbitrary whitespace accepted
only AFTER the colon and inside the payload; the leftmost occurrence supplies
the captured payload even when further markers follow, and a lowercase
variant of the keyword matches nothing. -/
theorem claim_C6_amended (pre payload post : List Char)
    (h1 : isSubstrOf kw pre = false) (h2 : payload.contains ']' = false) :
    findMarker (pre ++ kw ++ payload ++ ']' :: post) = some (payload.dropWhile pySpace) ∧
    findMarker (("[recomendacion_ids: 1]").toList) = none :=
  ⟨findMarker_at pre payload post h1 h2, by decide⟩

theorem claim_C6_amended_witness :
    findMarker (("A ").toList ++ kw ++ (" 1").toList ++ ']' ::
        ((" [RECOMENDACION_IDS: 2]").toList)) = some (("1").toList) := by
  have h := (claim_C6_amended (("A ").toList) ((" 1").toList)
    ((" [RECOMENDACION_IDS: 2]").toList) (by decide) (by decide)).1
  exact h.trans (by decide)

/-- Claim C7: with an absent or empty candidate list, the built prompt is the
instruction header followed by exactly the no-candidates instruction - no
per-candidate listing section is appended - and that instruction tells the
model to suggest broadening the search and to end with an empty marker. -/
theorem claim_C7 (uq un : List Char) (fil : Option (List Char))
    (hist : Option (List Message)) (prev : Option (List Int)) :
    buildPrompt ⟨uq, un, fil, none, hist, prev⟩ =
      promptIntro ⟨uq, un, fil, none, hist, prev⟩ ++ noCandidatesText ∧
    buildPrompt ⟨uq, un, fil, some [], hist, prev⟩ =
      promptIntro ⟨uq, un, fil, some [], hist, prev⟩ ++ noCandidatesText ∧
    isSubstrOf (("Sugiere al usuario que intente con otros términos o menos filtros.").toList)
      (buildPrompt ⟨uq, un, fil, none, hist, prev⟩) = true ∧
    isSubstrOf (("Termina tu respuesta con [RECOMENDACION_IDS: ].").toList)
      (buildPrompt ⟨uq, un, fil, none, hist, prev⟩) = true := by
  have h1 : buildPrompt ⟨uq, un, fil, none, hist, prev⟩ =
      promptIntro ⟨uq, un, fil, none, hist, prev⟩ ++ noCandidatesText := rfl
  have h2 : buildPrompt ⟨uq, un, fil, some [], hist, prev⟩ =
      promptIntro ⟨uq, un, fil, some [], hist, prev⟩ ++ noCandidatesText := rfl
  refine ⟨h1, h2, ?_, ?_⟩
  · rw [h1]
    exact substr_prepend _ _ (by decide) _
  · rw [h1]
    exact substr_prepend _ _ (by decide) _

/-- Claim C8 divergence at the failing input (a candidate whose cuisine-type
field is absent): pydantic always defines the attribute - as None - so the
`getattr` default 'Cocina variada' on line 93 is dead and the f-string
renders the text "None" into the cuisine slot; the tag default does render. -/
theorem claim_C8_bug :
    isSubstrOf ((" para dos | None").toList) (candidateBlock (mkCand 7)) = true ∧
    isSubstrOf (("Cocina variada").toList) (candidateBlock (mkCand 7)) = false ∧
    isSubstrOf (("Sin tags específicos").toList) (candidateBlock (mkCand 7)) = true := by
  exact ⟨by decide, by decide, by decide⟩

/-- Claim C5 counterexample: for the reply "a [RECOMENDACION_IDS: 1] b" the
code returns "ab" - the whitespace adjacent to the marker is deleted by the
`\s*...\s*` substitution - whereas the text with exactly the marker span
removed and then trimmed is "a  b" (two spaces), so the claimed equality
fails at this input. -/
theorem claim_C5_cex :
    (parseAndReconcile (("a [RECOMENDACION_IDS: 1] b").toList)
      (some [mkCand 1]) none).responseText = ("ab").toList ∧
    pyStrip (("a ").toList ++ ((" b").toList)) = ("a  b").toList ∧
    ("ab").toList ≠ ("a  b").toList := by
  exact ⟨by decide, by decide, by decide⟩

/-- Claim C5 as amended: for a reply text containing exactly one well-formed
marker (keyword occurring nowhere else), with the previous-identifier list
absent, the returned text is the original with the marker span TOGETHER WITH
the whitespace runs immediately adjacent to it removed, then trimmed; it is
free of the keyword provided the removal does not glue the surrounding
fragments into a fresh occurrence. -/
theorem claim_C5_amended (pre ws payload post : List Char) (cands : Option (List Candidate))
    (h1 : isSubstrOf kw pre = false) (h2 : endsNonSpace pre = true)
    (h3 : ws.all pySpace = true) (h4 : payload.contains ']' = false)
    (h5 : isSubstrOf kw post = false) :
    (parseAndReconcile (pre ++ ws ++ kw ++ payload ++ ']' :: post) cands none).responseText =
      pyStrip (pre ++ post.dropWhile pySpace) ∧
    (isSubstrOf kw (pre ++ post.dropWhile pySpace) = false →
      isSubstrOf kw ((parseAndReconcile (pre ++ ws ++ kw ++ payload ++ ']' :: post) cands
        none).responseText) = false) := by
  have hform : pre ++ ws ++ kw ++ payload ++ ']' :: post =
      (pre ++ ws) ++ kw ++ payload ++ ']' :: post := by
    simp [List.append_assoc]
  have hfm : findMarker (pre ++ ws ++ kw ++ payload ++ ']' :: post) =
      some (payload.dropWhile pySpace) := by
    rw [hform]
    exact findMarker_at (pre ++ ws) payload post (substr_append_space _ _ h1 h3) h4
  have hsegs : segsOkB [⟨ws, payload, post⟩] = true := by
    simp only [segsOkB]
    simp [h3, h5]
    intro hmem
    exact contains_false_forall _ _ h4 ']' hmem rfl
  have hrender : pre ++ ws ++ kw ++ payload ++ ']' :: post =
      pre ++ renderSegs [⟨ws, payload, post⟩] := by
    simp [renderSegs, List.append_assoc]
  have hstrip : stripMarkers (pre ++ ws ++ kw ++ payload ++ ']' :: post) =
      pre ++ post.dropWhile pySpace := by
    rw [hrender, stripMarkers_main [⟨ws, payload, post⟩] pre (by simp) hsegs h1 h2]
    simp [gapsJoin]
  have htext : (parseAndReconcile (pre ++ ws ++ kw ++ payload ++ ']' :: post) cands
      none).responseText = pyStrip (pre ++ post.dropWhile pySpace) := by
    simp only [parseAndReconcile, cleanedText, hfm, hstrip]
  refine ⟨htext, fun hk => ?_⟩
  rw [htext]
  refine bne_false _ fun hcon => ?_
  have hsub := substr_pyStrip _ _ hcon
  rw [hsub] at hk
  exact Bool.noConfusion hk

theorem claim_C5_amended_witness :
    (parseAndReconcile (("a").toList ++ (" ").toList ++ kw ++ (" 1").toList ++ ']' ::
        ((" b").toList)) (some [mkCand 1]) none).responseText =
      pyStrip (("a").toList ++ ((" b").toList).dropWhile pySpace) ∧
    isSubstrOf kw ((parseAndReconcile (("a").toList ++ (" ").toList ++ kw ++
        (" 1").toList ++ ']' :: ((" b").toList)) (some [mkCand 1]) none).responseText)
      = false := by
  have h := claim_C5_amended (("a").toList) ((" ").toList) ((" 1").toList) ((" b").toList)
    (some [mkCand 1]) (by decide) (by decide) (by decide) (by decide) (by decide)
  exact ⟨h.1, h.2 (by decide)⟩

theorem reconcile_text_cases (text : List Char) (cands : Option (List Candidate))
    (prev : Option (List Int)) :
    (parseAndReconcile text cands prev).responseText = cleanedText text ∨
    (parseAndReconcile text cands prev).responseText = fallbackText := by
  cases prev with
  | none => exact Or.inl rfl
  | some p =>
      simp only [parseAndReconcile]
      by_cases hp : p.isEmpty = true
      · rw [if_pos hp]
        exact Or.inl rfl
      · rw [if_neg hp]
        by_cases hi : ((filteredIds text cands).filter fun rid => p.contains rid).isEmpty = true
        · rw [if_pos hi]
          exact Or.inr rfl
        · rw [if_neg hi]
          exact Or.inl rfl

/-- Claim C10: for a reply text in canonical decomposition containing two or
more well-formed markers, the extracted identifiers come exclusively from the
first marker's payload - for every optional previous-identifier list the
returned identifiers are among the first payload's parsed ids - while EVERY
marker occurrence together with its adjacent whitespace is removed from the
returned response text (which is then trimmed); the response text is that
stripped text for every previous-identifier list except when the
empty-intersection fallback replaces it, and with the previous list absent the
full result is the stripped text with the first payload's ids filtered
against the candidates. -/
theorem claim_C10 (pre : List Char) (segs : List MarkerSeg) (cands : Option (List Candidate))
    (h1 : 2 ≤ segs.length) (h2 : segsOkB segs = true)
    (h3 : isSubstrOf kw pre = false) (h4 : endsNonSpace pre = true) :
    extractIds (pre ++ renderSegs segs) = parseIds (headPayload segs) ∧
    (∀ prev : Option (List Int),
      ∀ rid ∈ (parseAndReconcile (pre ++ renderSegs segs) cands prev).recommendation_ids,
        rid ∈ parseIds (headPayload segs)) ∧
    (∀ prev : Option (List Int),
      (parseAndReconcile (pre ++ renderSegs segs) cands prev).responseText =
        pyStrip (pre ++ gapsJoin segs) ∨
      (parseAndReconcile (pre ++ renderSegs segs) cands prev).responseText = fallbackText) ∧
    parseAndReconcile (pre ++ renderSegs segs) cands none =
      ⟨pyStrip (pre ++ gapsJoin segs),
       (parseIds (headPayload segs)).filter (fun rid => (candidateIds cands).contains rid)⟩ := by
  cases segs with
  | nil => simp at h1
  | cons seg rest =>
      obtain ⟨ws, payload, gap⟩ := seg
      have hok := h2
      simp only [segsOkB, Bool.and_eq_true] at hok
      obtain ⟨⟨⟨hws, hpayB⟩, hgkwB⟩, hrest⟩ := hok
      have hpay : payload.contains ']' = false := bnot_true _ hpayB
      have hform : pre ++ renderSegs (⟨ws, payload, gap⟩ :: rest) =
          (pre ++ ws) ++ kw ++ payload ++ ']' :: (gap ++ renderSegs rest) := by
        rw [renderSegs_cons]
        simp [List.append_assoc]
      have hfm : findMarker (pre ++ renderSegs (⟨ws, payload, gap⟩ :: rest)) =
          some (payload.dropWhile pySpace) := by
        rw [hform]
        exact findMarker_at (pre ++ ws) payload _ (substr_append_space _ _ h3 hws) hpay
      have hstrip : stripMarkers (pre ++ renderSegs (⟨ws, payload, gap⟩ :: rest)) =
          pre ++ gapsJoin (⟨ws, payload, gap⟩ :: rest) :=
        stripMarkers_main _ pre (by simp) h2 h3 h4
      have hids : extractIds (pre ++ renderSegs (⟨ws, payload, gap⟩ :: rest)) =
          parseIds payload := by
        simp only [extractIds, hfm]
        rw [parseIds_ite_empty]
        exact parseIds_dropWhile_space payload
      have hcln : cleanedText (pre ++ renderSegs (⟨ws, payload, gap⟩ :: rest)) =
          pyStrip (pre ++ gapsJoin (⟨ws, payload, gap⟩ :: rest)) := by
        simp only [cleanedText, hfm, hstrip]
      refine ⟨hids, ?_, ?_, ?_⟩
      · intro prev rid hrid
        have hmem := reconcile_ids_mem _ cands prev rid hrid
        simp only [filteredIds] at hmem
        rw [hids] at hmem
        exact (List.mem_filter.1 hmem).1
      · intro prev
        rcases reconcile_text_cases (pre ++ renderSegs (⟨ws, payload, gap⟩ :: rest))
            cands prev with h | h
        · exact Or.inl (h.trans hcln)
        · exact Or.inr h
      · simp only [parseAndReconcile, cleanedText, filteredIds, hfm, hstrip, hids]
        rfl

theorem claim_C10_witness :
    parseAndReconcile (("Hola").toList ++ renderSegs
        [⟨(" ").toList, (" 1").toList, (" y").toList⟩,
         ⟨(" ").toList, (" 2").toList, ("\n fin \n").toList⟩]) (some [mkCand 1]) none =
      ⟨("Holayfin").toList, [1]⟩ ∧
    (1 : Int) ∈ parseIds (headPayload
        [⟨(" ").toList, (" 1").toList, (" y").toList⟩,
         ⟨(" ").toList, (" 2").toList, ("\n fin \n").toList⟩]) := by
  have h := claim_C10 (("Hola").toList)
    [⟨(" ").toList, (" 1").toList, (" y").toList⟩,
     ⟨(" ").toList, (" 2").toList, ("\n fin \n").toList⟩]
    (some [mkCand 1]) (by decide) (by decide) (by decide) (by decide)
  exact ⟨h.2.2.2.trans (by decide), h.2.1 (some [1]) 1 (by decide)⟩
